import Mathlib

/-!
Verification of the exact-composition blackjack decision core.

This file shallowly embeds the Python sources of the repository in Lean 4:

* `src/src/exact/deck.py`      : deck vectors, hole-constraint views, removal
* `src/src/exact/dealer_pmf.py`: the exact dealer outcome distribution
* `src/src/exact/ev.py`        : stand EV and hit-then-stand EV
* `src/src/sim_core.py`        : the simulator's `tuple_remove`
* `src/src/main.py`            : the simulator's action chooser
* `src/src/app.py`             : the service's candidate argmax, counts apply,
                                 and `_add_to` hand arithmetic

Python floats are modelled as exact rationals `ℚ`; Python dicts from dealer
final totals to probabilities are modelled as functions `ℕ → ℚ` (absent key =
`0.0`, matching `dict.get(k, 0.0)`); the bust sentinel is the key `22`, as in
the source.  Python exceptions are modelled with `Option`/`Except`.
-/

/-- Hole-card constraint enum, from `src/src/exact/deck.py`
(`HC_NONE = 0`, `HC_NOT_TEN = 1`, `HC_NOT_ACE = 2`). -/
inductive HoleC
  | hcNone
  | hcNotTen
  | hcNotAce
deriving DecidableEq

/-- A shoe: 10 slots of remaining counts, indexed `A=0, 2..9 -> 1..8, T=9`,
from `src/src/exact/deck.py` (`Deck = Tuple[int,...]`). -/
abbrev Deck := Fin 10 → ℕ

/-- Rank values `[11,2,3,4,5,6,7,8,9,10]`, from `src/src/exact/dealer_pmf.py`
(`RANK_VAL`). -/
def rankValue : Fin 10 → ℕ := ![11, 2, 3, 4, 5, 6, 7, 8, 9, 10]

/-- Embedding of `deck_total` from `src/src/exact/deck.py`: sum of the slots. -/
def deckTotal (v : Deck) : ℕ := ∑ i, v i

/-- The slot zeroed by a hole constraint: rank 9 (Ten) for `NOT_TEN`, rank 0
(Ace) for `NOT_ACE`. -/
def maskedIdx : HoleC → Option (Fin 10)
  | .hcNone => none
  | .hcNotTen => some 9
  | .hcNotAce => some 0

/-- Embedding of `apply_hole_constraint_view` from `src/src/exact/deck.py`: a view of the
deck with the constrained slot zeroed; the underlying deck is not changed.
(The Python short-circuit `if deck[9] == 0: return deck` returns the same
function value, so it is not a separate case.) -/
def holeView (v : Deck) (hc : HoleC) : Deck :=
  fun i => if maskedIdx hc = some i then 0 else v i

/-- Embedding of `remove_card` from `src/src/exact/deck.py`: raising `ValueError` on an
empty slot is modelled as `none`; otherwise a fresh decremented vector is
returned (the input is a value and is never mutated). -/
def removeCard (v : Deck) (idx : Fin 10) : Option Deck :=
  if v idx = 0 then none
  else some (Function.update v idx (v idx - 1))

/-- Total decrement used inside the recursions, where the Python guard
`if cnt == 0: continue` guarantees `v idx > 0` so `remove_card` never raises. -/
def decr (v : Deck) (idx : Fin 10) : Deck :=
  Function.update v idx (v idx - 1)

/-- Embedding of `_add_rank` from `src/src/exact/dealer_pmf.py` (the identical arithmetic is
inlined in `hit_then_stand_ev` of `src/src/exact/ev.py`): add a rank's value,
then demote a soft ace if the total exceeds 21. -/
def addRank (total : ℕ) (soft : Bool) (r : Fin 10) : ℕ × Bool :=
  let v := rankValue r
  let nt := total + v
  let ns := soft || decide (r = 0)
  if 21 < nt ∧ ns = true then (nt - 10, false) else (nt, ns)

/-- The one-point distribution `{j: 1.0}`. -/
def pmfPoint (j : ℕ) : ℕ → ℚ := fun k => if k = j then 1 else 0

/-- Embedding of `_pmf_cached` from `src/src/exact/dealer_pmf.py`, with explicit fuel in
place of Python's implicit termination (each recursive call removes one card,
so fuel `deckTotal v` is never exhausted; the fuel-0 arm duplicates the
deck-exhaustion return and is unreachable from `dealerPmf`).  Branches, in
source order: bust (`total > 21`), stand (`total >= 17` unless soft 17 under
H17), exhausted masked view, and the draw step, which weights ranks by the
masked view but removes the drawn card from the real deck and recurses with
the same hole constraint `hc` (memoization does not change the computed
value, so the `lru_cache` layer is not modelled). -/
def pmfF (fuel : ℕ) (total : ℕ) (soft : Bool) (v : Deck) (h17 : Bool)
    (hc : HoleC) : ℕ → ℚ :=
  if 21 < total then pmfPoint 22
  else if 17 ≤ total ∧ ¬(h17 = true ∧ soft = true ∧ total = 17) then
    pmfPoint total
  else
    let w := holeView v hc
    let W := deckTotal w
    if W = 0 then pmfPoint (if total ≤ 21 then total else 22)
    else
      match fuel with
      | 0 => pmfPoint (if total ≤ 21 then total else 22)
      | Nat.succ f =>
        fun k => ∑ r : Fin 10,
          if w r = 0 then 0
          else ((w r : ℚ) / (W : ℚ)) *
            pmfF f (addRank total soft r).1 (addRank total soft r).2
              (decr v r) h17 hc k

/-- Embedding of `dealer_pmf` from `src/src/exact/dealer_pmf.py`: run the recursion with
enough fuel for every card in the deck. -/
def dealerPmf (total : ℕ) (soft : Bool) (v : Deck) (h17 : Bool)
    (hc : HoleC) : ℕ → ℚ :=
  pmfF (deckTotal v) total soft v h17 hc

/-- Dealer upcard start value, from `stand_ev` in `src/src/exact/ev.py`:
`11 if up == A else (10 if up == T else idx + 1)`. -/
def upValue (up : Fin 10) : ℕ :=
  if up = 0 then 11 else if up = 9 then 10 else (up : ℕ) + 1

/-- Dealer upcard start softness (`up == A`), from `src/src/exact/ev.py`. -/
def upSoft (up : Fin 10) : Bool := decide (up = 0)

/-- The dealer distribution `stand_ev` builds internally
(`dealer_pmf(start_total, start_soft, deck_post_deal, h17, hole_c)`). -/
def standPmf (up : Fin 10) (v : Deck) (h17 : Bool) (hc : HoleC) : ℕ → ℚ :=
  dealerPmf (upValue up) (upSoft up) v h17 hc

/-- Embedding of `stand_ev` from `src/src/exact/ev.py` at `wager = 1.0`.  `win` iterates
the PMF items with filter `17 <= t <= 21 and t < player_total <= 21`; summing
over all of `17..21` is the same value because absent keys carry mass `0`.
`push = pmf.get(player_total, 0.0)`, including the case `player_total = 22`
where the lookup hits the bust sentinel.  `player_soft` is accepted and
ignored, as in the source. -/
def standEv (pt : ℕ) (psoft : Bool) (up : Fin 10) (v : Deck) (h17 : Bool)
    (hc : HoleC) : ℚ :=
  let P := standPmf up v h17 hc
  let bustP := P 22
  let win := bustP + ∑ d ∈ Finset.Icc 17 21,
    (if d < pt ∧ pt ≤ 21 then P d else 0)
  let push := P pt
  let lose := 1 - win - push
  win - lose

/-- Embedding of `hit_then_stand_ev` from `src/src/exact/ev.py` at `wager = 1.0`: the
deck-weighted average of `stand_ev` after one card.  Note the source has no
bust case: the post-draw total is passed to `stand_ev` unconditionally. -/
def hitThenStandEv (pt : ℕ) (psoft : Bool) (up : Fin 10) (v : Deck)
    (h17 : Bool) (hc : HoleC) : ℚ :=
  let rem := deckTotal v
  if rem = 0 then standEv pt psoft up v h17 hc
  else ∑ r : Fin 10,
    if v r = 0 then 0
    else ((v r : ℚ) / (rem : ℚ)) *
      standEv (addRank pt psoft r).1 (addRank pt psoft r).2 up (decr v r)
        h17 hc

/-- Expansion of a sum over the ten ranks. -/
lemma sumUnivTen (f : Fin 10 → ℚ) :
    ∑ i, f i =
      f 0 + (f 1 + (f 2 + (f 3 + (f 4 +
        (f 5 + (f 6 + (f 7 + (f 8 + f 9)))))))) := by
  simp only [Fin.sum_univ_succ, Finset.univ_unique, Finset.sum_singleton]
  rfl

/-- Expansion of a sum over the dealer stand totals `17..21`. -/
lemma sumIcc17to21 (f : ℕ → ℚ) :
    ∑ d ∈ Finset.Icc 17 21, f d = f 17 + f 18 + f 19 + f 20 + f 21 := by
  rw [show Finset.Icc (17 : ℕ) 21 = {17, 18, 19, 20, 21} from by decide]
  rw [Finset.sum_insert (by decide), Finset.sum_insert (by decide),
    Finset.sum_insert (by decide), Finset.sum_insert (by decide),
    Finset.sum_singleton]
  ring

/-- Branch lemma: the bust base case of `_pmf_cached`. -/
lemma pmfF_bust (fuel total : ℕ) (soft : Bool) (v : Deck) (h17 : Bool)
    (hc : HoleC) (h : 21 < total) :
    pmfF fuel total soft v h17 hc = pmfPoint 22 := by
  rw [pmfF, if_pos h]

/-- Branch lemma: the standing base case of `_pmf_cached`. -/
lemma pmfF_stand (fuel total : ℕ) (soft : Bool) (v : Deck) (h17 : Bool)
    (hc : HoleC) (h1 : ¬ 21 < total) (h2 : 17 ≤ total)
    (h3 : ¬(h17 = true ∧ soft = true ∧ total = 17)) :
    pmfF fuel total soft v h17 hc = pmfPoint total := by
  rw [pmfF, if_neg h1, if_pos ⟨h2, h3⟩]

/-- Branch lemma: the exhausted-masked-view base case of `_pmf_cached`. -/
lemma pmfF_exhaust (fuel total : ℕ) (soft : Bool) (v : Deck) (h17 : Bool)
    (hc : HoleC) (h1 : ¬ 21 < total)
    (h2 : ¬(17 ≤ total ∧ ¬(h17 = true ∧ soft = true ∧ total = 17)))
    (h3 : deckTotal (holeView v hc) = 0) :
    pmfF fuel total soft v h17 hc =
      pmfPoint (if total ≤ 21 then total else 22) := by
  rw [pmfF, if_neg h1, if_neg h2]
  simp only [if_pos h3]

/-- Branch lemma: the fuel-exhaustion arm (unreachable from `dealerPmf`). -/
lemma pmfF_zero_draw (total : ℕ) (soft : Bool) (v : Deck) (h17 : Bool)
    (hc : HoleC) (h1 : ¬ 21 < total)
    (h2 : ¬(17 ≤ total ∧ ¬(h17 = true ∧ soft = true ∧ total = 17)))
    (h3 : deckTotal (holeView v hc) ≠ 0) :
    pmfF 0 total soft v h17 hc =
      pmfPoint (if total ≤ 21 then total else 22) := by
  rw [pmfF, if_neg h1, if_neg h2]
  simp only [if_neg h3]

/-- Branch lemma: the draw step of `_pmf_cached`. -/
lemma pmfF_draw (f total : ℕ) (soft : Bool) (v : Deck) (h17 : Bool)
    (hc : HoleC) (h1 : ¬ 21 < total)
    (h2 : ¬(17 ≤ total ∧ ¬(h17 = true ∧ soft = true ∧ total = 17)))
    (h3 : deckTotal (holeView v hc) ≠ 0) :
    pmfF (f + 1) total soft v h17 hc = fun k => ∑ r : Fin 10,
      if holeView v hc r = 0 then 0
      else ((holeView v hc r : ℚ) / (deckTotal (holeView v hc) : ℚ)) *
        pmfF f (addRank total soft r).1 (addRank total soft r).2
          (decr v r) h17 hc k := by
  rw [pmfF, if_neg h1, if_neg h2]
  simp only [if_neg h3]

/-- Modelled from the spec (section 4.C): the dealer PMF in which the peek
constraint weights only the first dealer draw and `subsequent draws` are
weighted over the full unmasked remaining deck.  The first step is the draw
step of `_pmf_cached`, but the children recurse with the constraint cleared.
Used only to compare `dealerPmf` against the specified behaviour. -/
def dealerPmfMaskFirstOnly (total : ℕ) (soft : Bool) (v : Deck) (h17 : Bool)
    (hc : HoleC) : ℕ → ℚ :=
  if 21 < total then pmfPoint 22
  else if 17 ≤ total ∧ ¬(h17 = true ∧ soft = true ∧ total = 17) then
    pmfPoint total
  else
    let w := holeView v hc
    let W := deckTotal w
    if W = 0 then pmfPoint (if total ≤ 21 then total else 22)
    else
      fun k => ∑ r : Fin 10,
        if w r = 0 then 0
        else ((w r : ℚ) / (W : ℚ)) *
          dealerPmf (addRank total soft r).1 (addRank total soft r).2
            (decr v r) h17 HoleC.hcNone k

/-- Draw-step branch lemma for `dealerPmfMaskFirstOnly`. -/
lemma maskFirstOnly_draw (total : ℕ) (soft : Bool) (v : Deck) (h17 : Bool)
    (hc : HoleC) (h1 : ¬ 21 < total)
    (h2 : ¬(17 ≤ total ∧ ¬(h17 = true ∧ soft = true ∧ total = 17)))
    (h3 : deckTotal (holeView v hc) ≠ 0) :
    dealerPmfMaskFirstOnly total soft v h17 hc = fun k => ∑ r : Fin 10,
      if holeView v hc r = 0 then 0
      else ((holeView v hc r : ℚ) / (deckTotal (holeView v hc) : ℚ)) *
        dealerPmf (addRank total soft r).1 (addRank total soft r).2
          (decr v r) h17 HoleC.hcNone k := by
  rw [dealerPmfMaskFirstOnly, if_neg h1, if_neg h2]
  simp only [if_neg h3]

/-- Concrete deck: one deuce and one Ten. -/
def dDeuceTen : Deck := fun i => if i = 1 then 1 else if i = 9 then 1 else 0

/-- Concrete deck: a single Ten. -/
def dTen1 : Deck := fun i => if i = 9 then 1 else 0

/-- Concrete deck: two Tens. -/
def dTens2 : Deck := fun i => if i = 9 then 2 else 0

/-- Concrete deck: three Tens. -/
def dTens3 : Deck := fun i => if i = 9 then 3 else 0

/-- Concrete deck: seventeen Tens. -/
def dTens17 : Deck := fun i => if i = 9 then 17 else 0

/-- Concrete deck: empty shoe. -/
def dEmpty : Deck := fun _ => 0

/-- Evaluation: from total 7 with only a Ten left but Tens masked, the masked
view is exhausted and the recursion returns the sub-17 total 7. -/
lemma pmf7TenNotTen : pmfF 1 7 false dTen1 true .hcNotTen = pmfPoint 7 := by
  rw [pmfF_exhaust 1 7 false dTen1 true .hcNotTen (by norm_num) (by norm_num)
    (by decide)]
  norm_num

/-- Evaluation: the exact dealer PMF re-applies `NOT_TEN` to the second draw,
so from (5, hard) with deck {deuce, Ten} the Ten is never drawn. -/
lemma pmfDeuceTenEval :
    dealerPmf 5 false dDeuceTen true .hcNotTen = pmfPoint 7 := by
  have hdt : deckTotal dDeuceTen = 2 := by decide
  rw [dealerPmf, hdt, show (2:ℕ) = 1 + 1 from rfl,
    pmfF_draw 1 5 false dDeuceTen true .hcNotTen (by norm_num) (by norm_num)
      (by decide)]
  funext k
  rw [sumUnivTen]
  norm_num [show holeView dDeuceTen .hcNotTen 0 = 0 from by decide,
    show holeView dDeuceTen .hcNotTen 1 = 1 from by decide,
    show holeView dDeuceTen .hcNotTen 2 = 0 from by decide,
    show holeView dDeuceTen .hcNotTen 3 = 0 from by decide,
    show holeView dDeuceTen .hcNotTen 4 = 0 from by decide,
    show holeView dDeuceTen .hcNotTen 5 = 0 from by decide,
    show holeView dDeuceTen .hcNotTen 6 = 0 from by decide,
    show holeView dDeuceTen .hcNotTen 7 = 0 from by decide,
    show holeView dDeuceTen .hcNotTen 8 = 0 from by decide,
    show holeView dDeuceTen .hcNotTen 9 = 0 from by decide,
    show deckTotal (holeView dDeuceTen .hcNotTen) = 1 from by decide,
    show addRank 5 false 1 = (7, false) from by decide,
    show decr dDeuceTen 1 = dTen1 from by decide, pmf7TenNotTen]

/-- Evaluation: unconstrained dealer run from (7, hard) with a single Ten:
draw it, reach 17, stand. -/
lemma pmf7Ten1Eval : dealerPmf 7 false dTen1 true .hcNone = pmfPoint 17 := by
  have hdt : deckTotal dTen1 = 1 := by decide
  rw [dealerPmf, hdt, show (1:ℕ) = 0 + 1 from rfl,
    pmfF_draw 0 7 false dTen1 true .hcNone (by norm_num) (by norm_num)
      (by decide)]
  funext k
  rw [sumUnivTen]
  norm_num [show holeView dTen1 .hcNone 0 = 0 from by decide,
    show holeView dTen1 .hcNone 1 = 0 from by decide,
    show holeView dTen1 .hcNone 2 = 0 from by decide,
    show holeView dTen1 .hcNone 3 = 0 from by decide,
    show holeView dTen1 .hcNone 4 = 0 from by decide,
    show holeView dTen1 .hcNone 5 = 0 from by decide,
    show holeView dTen1 .hcNone 6 = 0 from by decide,
    show holeView dTen1 .hcNone 7 = 0 from by decide,
    show holeView dTen1 .hcNone 8 = 0 from by decide,
    show holeView dTen1 .hcNone 9 = 1 from by decide,
    show deckTotal (holeView dTen1 .hcNone) = 1 from by decide,
    show addRank 7 false 9 = (17, false) from by decide,
    show decr dTen1 9 = dEmpty from by decide,
    pmfF_stand 0 17 false dEmpty true .hcNone (by norm_num) (by norm_num)
      (by simp)]

/-- Evaluation: the spec-conformant consume-once PMF from (5, hard) with deck
{deuce, Ten} draws the deuce under the mask, then the Ten freely: {17: 1}. -/
lemma maskFirstOnlyDeuceTenEval :
    dealerPmfMaskFirstOnly 5 false dDeuceTen true .hcNotTen = pmfPoint 17 := by
  rw [maskFirstOnly_draw 5 false dDeuceTen true .hcNotTen (by norm_num)
    (by norm_num) (by decide)]
  funext k
  rw [sumUnivTen]
  norm_num [show holeView dDeuceTen .hcNotTen 0 = 0 from by decide,
    show holeView dDeuceTen .hcNotTen 1 = 1 from by decide,
    show holeView dDeuceTen .hcNotTen 2 = 0 from by decide,
    show holeView dDeuceTen .hcNotTen 3 = 0 from by decide,
    show holeView dDeuceTen .hcNotTen 4 = 0 from by decide,
    show holeView dDeuceTen .hcNotTen 5 = 0 from by decide,
    show holeView dDeuceTen .hcNotTen 6 = 0 from by decide,
    show holeView dDeuceTen .hcNotTen 7 = 0 from by decide,
    show holeView dDeuceTen .hcNotTen 8 = 0 from by decide,
    show holeView dDeuceTen .hcNotTen 9 = 0 from by decide,
    show deckTotal (holeView dDeuceTen .hcNotTen) = 1 from by decide,
    show addRank 5 false 1 = (7, false) from by decide,
    show decr dDeuceTen 1 = dTen1 from by decide, pmf7Ten1Eval]

/-- Evaluation: dealer at (16, hard) with two Tens draws one and busts. -/
lemma pmf16Tens2Eval : pmfF 2 16 false dTens2 true .hcNone = pmfPoint 22 := by
  rw [show (2:ℕ) = 1 + 1 from rfl,
    pmfF_draw 1 16 false dTens2 true .hcNone (by norm_num) (by norm_num)
      (by decide)]
  funext k
  rw [sumUnivTen]
  norm_num [show holeView dTens2 .hcNone 0 = 0 from by decide,
    show holeView dTens2 .hcNone 1 = 0 from by decide,
    show holeView dTens2 .hcNone 2 = 0 from by decide,
    show holeView dTens2 .hcNone 3 = 0 from by decide,
    show holeView dTens2 .hcNone 4 = 0 from by decide,
    show holeView dTens2 .hcNone 5 = 0 from by decide,
    show holeView dTens2 .hcNone 6 = 0 from by decide,
    show holeView dTens2 .hcNone 7 = 0 from by decide,
    show holeView dTens2 .hcNone 8 = 0 from by decide,
    show holeView dTens2 .hcNone 9 = 2 from by decide,
    show deckTotal (holeView dTens2 .hcNone) = 2 from by decide,
    show addRank 16 false 9 = (26, false) from by decide,
    pmfF_bust 1 26 false (decr dTens2 9) true .hcNone (by norm_num)]

/-- Evaluation: dealer upcard six against three Tens always busts. -/
lemma standPmfTens3Eval : standPmf 5 dTens3 true .hcNone = pmfPoint 22 := by
  rw [standPmf, show upValue 5 = 6 from by decide,
    show upSoft 5 = false from by decide, dealerPmf,
    show deckTotal dTens3 = 3 from by decide, show (3:ℕ) = 2 + 1 from rfl,
    pmfF_draw 2 6 false dTens3 true .hcNone (by norm_num) (by norm_num)
      (by decide)]
  funext k
  rw [sumUnivTen]
  norm_num [show holeView dTens3 .hcNone 0 = 0 from by decide,
    show holeView dTens3 .hcNone 1 = 0 from by decide,
    show holeView dTens3 .hcNone 2 = 0 from by decide,
    show holeView dTens3 .hcNone 3 = 0 from by decide,
    show holeView dTens3 .hcNone 4 = 0 from by decide,
    show holeView dTens3 .hcNone 5 = 0 from by decide,
    show holeView dTens3 .hcNone 6 = 0 from by decide,
    show holeView dTens3 .hcNone 7 = 0 from by decide,
    show holeView dTens3 .hcNone 8 = 0 from by decide,
    show holeView dTens3 .hcNone 9 = 3 from by decide,
    show deckTotal (holeView dTens3 .hcNone) = 3 from by decide,
    show addRank 6 false 9 = (16, false) from by decide,
    show decr dTens3 9 = dTens2 from by decide, pmf16Tens2Eval]

/-- Evaluation: dealer at (16, hard) with one Ten draws it and busts. -/
lemma pmf16Ten1Eval : pmfF 1 16 false dTen1 true .hcNone = pmfPoint 22 := by
  rw [show (1:ℕ) = 0 + 1 from rfl,
    pmfF_draw 0 16 false dTen1 true .hcNone (by norm_num) (by norm_num)
      (by decide)]
  funext k
  rw [sumUnivTen]
  norm_num [show holeView dTen1 .hcNone 0 = 0 from by decide,
    show holeView dTen1 .hcNone 1 = 0 from by decide,
    show holeView dTen1 .hcNone 2 = 0 from by decide,
    show holeView dTen1 .hcNone 3 = 0 from by decide,
    show holeView dTen1 .hcNone 4 = 0 from by decide,
    show holeView dTen1 .hcNone 5 = 0 from by decide,
    show holeView dTen1 .hcNone 6 = 0 from by decide,
    show holeView dTen1 .hcNone 7 = 0 from by decide,
    show holeView dTen1 .hcNone 8 = 0 from by decide,
    show holeView dTen1 .hcNone 9 = 1 from by decide,
    show deckTotal (holeView dTen1 .hcNone) = 1 from by decide,
    show addRank 16 false 9 = (26, false) from by decide,
    pmfF_bust 0 26 false (decr dTen1 9) true .hcNone (by norm_num)]

/-- Evaluation: dealer upcard six against two Tens always busts. -/
lemma standPmfTens2Eval : standPmf 5 dTens2 true .hcNone = pmfPoint 22 := by
  rw [standPmf, show upValue 5 = 6 from by decide,
    show upSoft 5 = false from by decide, dealerPmf,
    show deckTotal dTens2 = 2 from by decide, show (2:ℕ) = 1 + 1 from rfl,
    pmfF_draw 1 6 false dTens2 true .hcNone (by norm_num) (by norm_num)
      (by decide)]
  funext k
  rw [sumUnivTen]
  norm_num [show holeView dTens2 .hcNone 0 = 0 from by decide,
    show holeView dTens2 .hcNone 1 = 0 from by decide,
    show holeView dTens2 .hcNone 2 = 0 from by decide,
    show holeView dTens2 .hcNone 3 = 0 from by decide,
    show holeView dTens2 .hcNone 4 = 0 from by decide,
    show holeView dTens2 .hcNone 5 = 0 from by decide,
    show holeView dTens2 .hcNone 6 = 0 from by decide,
    show holeView dTens2 .hcNone 7 = 0 from by decide,
    show holeView dTens2 .hcNone 8 = 0 from by decide,
    show holeView dTens2 .hcNone 9 = 2 from by decide,
    show deckTotal (holeView dTens2 .hcNone) = 2 from by decide,
    show addRank 6 false 9 = (16, false) from by decide,
    show decr dTens2 9 = dTen1 from by decide, pmf16Ten1Eval]

/-- Evaluation: dealer upcard deuce against a single Ten reaches 12 and the
deck runs out, so the final "total" is 12. -/
lemma standPmfUp2Ten1Eval : standPmf 1 dTen1 true .hcNone = pmfPoint 12 := by
  rw [standPmf, show upValue 1 = 2 from by decide,
    show upSoft 1 = false from by decide, dealerPmf,
    show deckTotal dTen1 = 1 from by decide, show (1:ℕ) = 0 + 1 from rfl,
    pmfF_draw 0 2 false dTen1 true .hcNone (by norm_num) (by norm_num)
      (by decide)]
  funext k
  rw [sumUnivTen]
  norm_num [show holeView dTen1 .hcNone 0 = 0 from by decide,
    show holeView dTen1 .hcNone 1 = 0 from by decide,
    show holeView dTen1 .hcNone 2 = 0 from by decide,
    show holeView dTen1 .hcNone 3 = 0 from by decide,
    show holeView dTen1 .hcNone 4 = 0 from by decide,
    show holeView dTen1 .hcNone 5 = 0 from by decide,
    show holeView dTen1 .hcNone 6 = 0 from by decide,
    show holeView dTen1 .hcNone 7 = 0 from by decide,
    show holeView dTen1 .hcNone 8 = 0 from by decide,
    show holeView dTen1 .hcNone 9 = 1 from by decide,
    show deckTotal (holeView dTen1 .hcNone) = 1 from by decide,
    show addRank 2 false 9 = (12, false) from by decide,
    pmfF_exhaust 0 12 false (decr dTen1 9) true .hcNone (by norm_num)
      (by norm_num) (by decide)]

/-- Evaluation: standing on a busted 26 against a sure-bust dealer scores +1
in `stand_ev` (the win branch counts the dealer bust mass). -/
lemma standEv26Tens2Eval : standEv 26 false 5 dTens2 true .hcNone = 1 := by
  simp only [standEv]
  rw [standPmfTens2Eval, sumIcc17to21]
  norm_num [pmfPoint]

/-- Claim C1: the claim asserts that the peek constraint restricts only the
first dealer draw.  In `_pmf_cached` the constraint `hole_c` is passed
unchanged into every recursive call, so later draws are also masked: from
(5, hard) with deck {deuce, Ten} under `NOT_TEN`, the exact code yields
{7: 1} (the Ten is never drawn after the deuce), while the constraint
consumed by the first draw alone would yield {17: 1}. -/
theorem C1_peek_constraint_reapplied :
    dealerPmf 5 false dDeuceTen true .hcNotTen 7 = 1 ∧
    dealerPmf 5 false dDeuceTen true .hcNotTen 17 = 0 ∧
    dealerPmfMaskFirstOnly 5 false dDeuceTen true .hcNotTen 17 = 1 ∧
    dealerPmfMaskFirstOnly 5 false dDeuceTen true .hcNotTen 7 = 0 := by
  rw [pmfDeuceTenEval, maskFirstOnlyDeuceTenEval]
  norm_num [pmfPoint]

/-- Claim C2: the claim requires a card that busts the player to contribute
exactly minus one times its draw probability to the hit expectation.  In
`hit_then_stand_ev` the busted total is instead passed to `stand_ev`: at
player 16 (hard) against upcard six with a deck of three Tens, the only card
(probability 1) busts the player, yet the hit EV evaluates to +1 — the
busted player is credited with the dealer's certain bust — where the claim
requires −1. -/
theorem C2_hit_bust_not_settled_minus_one :
    hitThenStandEv 16 false 5 dTens3 true .hcNone = 1 := by
  simp only [hitThenStandEv]
  rw [if_neg (by decide : ¬ deckTotal dTens3 = 0), sumUnivTen]
  norm_num [show dTens3 0 = 0 from by decide,
    show dTens3 1 = 0 from by decide,
    show dTens3 2 = 0 from by decide,
    show dTens3 3 = 0 from by decide,
    show dTens3 4 = 0 from by decide,
    show dTens3 5 = 0 from by decide,
    show dTens3 6 = 0 from by decide,
    show dTens3 7 = 0 from by decide,
    show dTens3 8 = 0 from by decide,
    show dTens3 9 = 3 from by decide,
    show deckTotal dTens3 = 3 from by decide,
    show addRank 16 false 9 = (26, false) from by decide,
    show decr dTens3 9 = dTens2 from by decide, standEv26Tens2Eval]

/-- Claim C3: the claim bounds `stand_ev` in [−1, +1] for every player total
including totals above 21.  At player total exactly 22 the `pmf.get(22)`
push lookup collides with the bust sentinel, so against a sure-bust dealer
(upcard six, three Tens) `stand_ev` evaluates to 2, outside the claimed
bound. -/
theorem C3_stand_ev_reaches_two :
    standEv 22 false 5 dTens3 true .hcNone = 2 := by
  simp only [standEv]
  rw [standPmfTens3Eval, sumIcc17to21]
  norm_num [pmfPoint]

/-- Claim C5 counterexample: with an exhausted shoe the dealer PMF returns the
current sub-17 total itself as an outcome key; from (6, hard) on the empty
deck the mapping is {6: 1}, and 6 is not one of the six claimed buckets. -/
theorem C5_counterexample_sub17_key :
    dealerPmf 6 false dEmpty true .hcNone 6 = 1 ∧ 6 < 17 := by
  constructor
  · rw [dealerPmf, show deckTotal dEmpty = 0 from by decide,
      pmfF_exhaust 0 6 false dEmpty true .hcNone (by norm_num) (by norm_num)
        (by decide)]
    norm_num [pmfPoint]
  · norm_num

/-- Claim C9 counterexample: stand EV is not monotone in the player total on
decks the dealer can exhaust.  Against upcard deuce with a single Ten left,
the dealer finishes on 12, so standing on 12 pushes (EV 0) while standing on
13 — all five stand totals 17..21 being out of reach — loses the full unit
mass that sits on the dealer "total" 12 (EV −1). -/
theorem C9_counterexample_not_monotone :
    standEv 13 false 1 dTen1 true .hcNone = -1 ∧
    standEv 12 false 1 dTen1 true .hcNone = 0 := by
  constructor <;>
  · simp only [standEv]
    rw [standPmfUp2Ten1Eval, sumIcc17to21]
    norm_num [pmfPoint]

/-- The one-point distribution is nonnegative. -/
lemma pmfPoint_nonneg (j k : ℕ) : 0 ≤ pmfPoint j k := by
  unfold pmfPoint
  split <;> norm_num

/-- The one-point distribution sums to 1 over the outcome window `0..22`. -/
lemma pmfPoint_sum (j : ℕ) (hj : j < 23) :
    ∑ k ∈ Finset.range 23, pmfPoint j k = 1 := by
  unfold pmfPoint
  rw [Finset.sum_ite_eq' (Finset.range 23) j fun _ => (1 : ℚ)]
  simp [Finset.mem_range.mpr hj]

/-- The one-point distribution is supported on its point. -/
lemma pmfPoint_ne_zero (j k : ℕ) (h : pmfPoint j k ≠ 0) : k = j := by
  by_contra hk
  simp [pmfPoint, hk] at h

/-- The masked view never exceeds the real deck. -/
lemma holeView_le (v : Deck) (hc : HoleC) (i : Fin 10) : holeView v hc i ≤ v i := by
  unfold holeView
  split <;> omega

/-- The masked view's size never exceeds the real deck's size. -/
lemma deckTotal_holeView_le (v : Deck) (hc : HoleC) :
    deckTotal (holeView v hc) ≤ deckTotal v :=
  Finset.sum_le_sum fun i _ => holeView_le v hc i

/-- Removing a present card shrinks the deck size by exactly one. -/
lemma deckTotal_decr (v : Deck) (r : Fin 10) (h : v r ≠ 0) :
    deckTotal (decr v r) + 1 = deckTotal v := by
  unfold deckTotal decr
  rw [Finset.sum_update_of_mem (Finset.mem_univ r)]
  rw [← Finset.sum_erase_add Finset.univ v (Finset.mem_univ r),
    Finset.sdiff_singleton_eq_erase]
  omega

/-- Removing an unmasked card commutes with taking the masked view. -/
lemma holeView_decr_comm (v : Deck) (hc : HoleC) (r : Fin 10)
    (h : holeView v hc r ≠ 0) :
    holeView (decr v r) hc = decr (holeView v hc) r := by
  have hmr : ¬ maskedIdx hc = some r := by
    intro hm
    simp [holeView, hm] at h
  funext i
  simp only [holeView, decr, Function.update_apply]
  by_cases hir : i = r
  · subst hir
    simp [hmr]
  · simp [hir]

/-- Every value of the dealer recursion is nonnegative. -/
lemma pmfF_nonneg (fuel : ℕ) : ∀ (total : ℕ) (soft : Bool) (v : Deck)
    (h17 : Bool) (hc : HoleC) (k : ℕ), 0 ≤ pmfF fuel total soft v h17 hc k := by
  induction fuel with
  | zero =>
    intro t s v h17 hc k
    by_cases h1 : 21 < t
    · rw [pmfF_bust _ _ _ _ _ _ h1]; exact pmfPoint_nonneg _ _
    by_cases h2 : 17 ≤ t ∧ ¬(h17 = true ∧ s = true ∧ t = 17)
    · rw [pmfF_stand _ _ _ _ _ _ h1 h2.1 h2.2]; exact pmfPoint_nonneg _ _
    by_cases h3 : deckTotal (holeView v hc) = 0
    · rw [pmfF_exhaust _ _ _ _ _ _ h1 h2 h3]; exact pmfPoint_nonneg _ _
    · rw [pmfF_zero_draw _ _ _ _ _ h1 h2 h3]; exact pmfPoint_nonneg _ _
  | succ f ih =>
    intro t s v h17 hc k
    by_cases h1 : 21 < t
    · rw [pmfF_bust _ _ _ _ _ _ h1]; exact pmfPoint_nonneg _ _
    by_cases h2 : 17 ≤ t ∧ ¬(h17 = true ∧ s = true ∧ t = 17)
    · rw [pmfF_stand _ _ _ _ _ _ h1 h2.1 h2.2]; exact pmfPoint_nonneg _ _
    by_cases h3 : deckTotal (holeView v hc) = 0
    · rw [pmfF_exhaust _ _ _ _ _ _ h1 h2 h3]; exact pmfPoint_nonneg _ _
    · rw [pmfF_draw f t s v h17 hc h1 h2 h3]
      apply Finset.sum_nonneg
      intro r _
      by_cases hw : holeView v hc r = 0
      · simp [hw]
      · rw [if_neg hw]
        apply mul_nonneg
        · apply div_nonneg <;> exact Nat.cast_nonneg _
        · exact ih _ _ _ _ _ _

/-- Every level of the dealer recursion is a probability distribution on the
window `0..22`: the values sum to exactly 1. -/
lemma pmfF_sum_one (fuel : ℕ) : ∀ (total : ℕ) (soft : Bool) (v : Deck)
    (h17 : Bool) (hc : HoleC),
    ∑ k ∈ Finset.range 23, pmfF fuel total soft v h17 hc k = 1 := by
  induction fuel with
  | zero =>
    intro t s v h17 hc
    by_cases h1 : 21 < t
    · rw [pmfF_bust _ _ _ _ _ _ h1]; exact pmfPoint_sum _ (by norm_num)
    by_cases h2 : 17 ≤ t ∧ ¬(h17 = true ∧ s = true ∧ t = 17)
    · rw [pmfF_stand _ _ _ _ _ _ h1 h2.1 h2.2]
      exact pmfPoint_sum _ (by omega)
    by_cases h3 : deckTotal (holeView v hc) = 0
    · rw [pmfF_exhaust _ _ _ _ _ _ h1 h2 h3]
      exact pmfPoint_sum _ (by split <;> omega)
    · rw [pmfF_zero_draw _ _ _ _ _ h1 h2 h3]
      exact pmfPoint_sum _ (by split <;> omega)
  | succ f ih =>
    intro t s v h17 hc
    by_cases h1 : 21 < t
    · rw [pmfF_bust _ _ _ _ _ _ h1]; exact pmfPoint_sum _ (by norm_num)
    by_cases h2 : 17 ≤ t ∧ ¬(h17 = true ∧ s = true ∧ t = 17)
    · rw [pmfF_stand _ _ _ _ _ _ h1 h2.1 h2.2]
      exact pmfPoint_sum _ (by omega)
    by_cases h3 : deckTotal (holeView v hc) = 0
    · rw [pmfF_exhaust _ _ _ _ _ _ h1 h2 h3]
      exact pmfPoint_sum _ (by split <;> omega)
    · rw [pmfF_draw f t s v h17 hc h1 h2 h3]
      rw [Finset.sum_comm]
      have hper : ∀ r : Fin 10,
          (∑ k ∈ Finset.range 23,
            if holeView v hc r = 0 then 0
            else ((holeView v hc r : ℚ) / (deckTotal (holeView v hc) : ℚ)) *
              pmfF f (addRank t s r).1 (addRank t s r).2 (decr v r) h17 hc k)
          = (holeView v hc r : ℚ) / (deckTotal (holeView v hc) : ℚ) := by
        intro r
        by_cases hw : holeView v hc r = 0
        · simp [hw]
        · rw [Finset.sum_congr rfl fun k _ => if_neg hw, ← Finset.mul_sum,
            ih _ _ _ _ _, mul_one]
      rw [Finset.sum_congr rfl fun r _ => hper r, ← Finset.sum_div,
        ← Nat.cast_sum]
      exact div_self (Nat.cast_ne_zero.mpr h3)



/-- No outcome key above the bust sentinel 22 ever carries mass. -/
lemma pmfF_key_le (fuel : ℕ) : ∀ (total : ℕ) (soft : Bool) (v : Deck)
    (h17 : Bool) (hc : HoleC) (k : ℕ),
    pmfF fuel total soft v h17 hc k ≠ 0 → k ≤ 22 := by
  induction fuel with
  | zero =>
    intro t s v h17 hc k hk
    by_cases h1 : 21 < t
    · rw [pmfF_bust _ _ _ _ _ _ h1] at hk
      have hk2 := pmfPoint_ne_zero _ _ hk
      omega
    by_cases h2 : 17 ≤ t ∧ ¬(h17 = true ∧ s = true ∧ t = 17)
    · rw [pmfF_stand _ _ _ _ _ _ h1 h2.1 h2.2] at hk
      have hk2 := pmfPoint_ne_zero _ _ hk
      omega
    by_cases h3 : deckTotal (holeView v hc) = 0
    · rw [pmfF_exhaust _ _ _ _ _ _ h1 h2 h3] at hk
      have hk2 := pmfPoint_ne_zero _ _ hk
      rw [if_pos (by omega : t ≤ 21)] at hk2
      omega
    · rw [pmfF_zero_draw _ _ _ _ _ h1 h2 h3] at hk
      have hk2 := pmfPoint_ne_zero _ _ hk
      rw [if_pos (by omega : t ≤ 21)] at hk2
      omega
  | succ f ih =>
    intro t s v h17 hc k hk
    by_cases h1 : 21 < t
    · rw [pmfF_bust _ _ _ _ _ _ h1] at hk
      have hk2 := pmfPoint_ne_zero _ _ hk
      omega
    by_cases h2 : 17 ≤ t ∧ ¬(h17 = true ∧ s = true ∧ t = 17)
    · rw [pmfF_stand _ _ _ _ _ _ h1 h2.1 h2.2] at hk
      have hk2 := pmfPoint_ne_zero _ _ hk
      omega
    by_cases h3 : deckTotal (holeView v hc) = 0
    · rw [pmfF_exhaust _ _ _ _ _ _ h1 h2 h3] at hk
      have hk2 := pmfPoint_ne_zero _ _ hk
      rw [if_pos (by omega : t ≤ 21)] at hk2
      omega
    · rw [pmfF_draw f t s v h17 hc h1 h2 h3] at hk
      obtain ⟨r, hmem, hr⟩ := Finset.exists_ne_zero_of_sum_ne_zero hk
      by_cases hw : holeView v hc r = 0
      · rw [if_pos hw] at hr
        exact absurd rfl hr
      · rw [if_neg hw] at hr
        exact ih _ _ _ _ _ _ (right_ne_zero_of_mul hr)

/-- The hard count of a dealer hand: the total with a still-elevated ace
counted as 1 instead of 11.  Every draw strictly increases it. -/
def hardCount (total : ℕ) (soft : Bool) : ℤ :=
  (total : ℤ) - (if soft then 10 else 0)

/-- Rank values: the ace is 11, every other rank is worth at least 2. -/
lemma rankValue_cases (r : Fin 10) :
    (r = 0 ∧ rankValue r = 11) ∨ (r ≠ 0 ∧ 2 ≤ rankValue r) := by
  revert r
  decide

/-- Adding any rank increases the hard count by at least one. -/
lemma addRank_hardCount (t : ℕ) (s : Bool) (r : Fin 10) :
    hardCount t s + 1 ≤ hardCount (addRank t s r).1 (addRank t s r).2 := by
  rcases rankValue_cases r with ⟨hr0, hval⟩ | ⟨hr0, hval⟩
  · subst hr0
    cases s
    · by_cases hd : 21 < t + rankValue 0
      · rw [addRank, if_pos ⟨hd, rfl⟩]
        simp only [hardCount, hval] at *
        simp
        try omega
      · rw [addRank, if_neg (fun hcon => hd hcon.1)]
        simp only [hardCount, hval] at *
        simp
        try omega
    · by_cases hd : 21 < t + rankValue 0
      · rw [addRank, if_pos ⟨hd, rfl⟩]
        simp only [hardCount, hval] at *
        simp
        try omega
      · rw [addRank, if_neg (fun hcon => hd hcon.1)]
        simp only [hardCount, hval] at *
        simp
        try omega
  · have hdec : (s || decide (r = 0)) = s := by
      rw [decide_eq_false hr0, Bool.or_false]
    cases s
    · rw [addRank, if_neg (fun hcon => by rw [hdec] at hcon; cases hcon.2)]
      simp only [hardCount]
      simp
      omega
    · by_cases hd : 21 < t + rankValue r
      · rw [addRank, if_pos ⟨hd, hdec⟩]
        simp only [hardCount]
        simp
        try omega
      · rw [addRank, if_neg (fun hcon => hd hcon.1)]
        rw [hdec]
        simp only [hardCount]
        simp
        try omega

/-- With enough fuel and a masked deck large enough to carry the dealer to a
standing total, every outcome key with mass is at least 17. -/
lemma pmfF_key_ge (fuel : ℕ) : ∀ (total : ℕ) (soft : Bool) (v : Deck)
    (h17 : Bool) (hc : HoleC) (k : ℕ),
    deckTotal v ≤ fuel →
    17 ≤ hardCount total soft + (deckTotal (holeView v hc) : ℤ) →
    pmfF fuel total soft v h17 hc k ≠ 0 → 17 ≤ k := by
  induction fuel with
  | zero =>
    intro t s v h17 hc k hfuel hinv hk
    by_cases h1 : 21 < t
    · rw [pmfF_bust _ _ _ _ _ _ h1] at hk
      have hk2 := pmfPoint_ne_zero _ _ hk
      omega
    by_cases h2 : 17 ≤ t ∧ ¬(h17 = true ∧ s = true ∧ t = 17)
    · rw [pmfF_stand _ _ _ _ _ _ h1 h2.1 h2.2] at hk
      have hk2 := pmfPoint_ne_zero _ _ hk
      omega
    by_cases h3 : deckTotal (holeView v hc) = 0
    · rw [pmfF_exhaust _ _ _ _ _ _ h1 h2 h3] at hk
      have hk2 := pmfPoint_ne_zero _ _ hk
      rw [if_pos (by omega : t ≤ 21)] at hk2
      rw [h3] at hinv
      unfold hardCount at hinv
      subst hk2
      cases s <;> simp at hinv <;> omega
    · exfalso
      have hle := deckTotal_holeView_le v hc
      omega
  | succ f ih =>
    intro t s v h17 hc k hfuel hinv hk
    by_cases h1 : 21 < t
    · rw [pmfF_bust _ _ _ _ _ _ h1] at hk
      have hk2 := pmfPoint_ne_zero _ _ hk
      omega
    by_cases h2 : 17 ≤ t ∧ ¬(h17 = true ∧ s = true ∧ t = 17)
    · rw [pmfF_stand _ _ _ _ _ _ h1 h2.1 h2.2] at hk
      have hk2 := pmfPoint_ne_zero _ _ hk
      omega
    by_cases h3 : deckTotal (holeView v hc) = 0
    · rw [pmfF_exhaust _ _ _ _ _ _ h1 h2 h3] at hk
      have hk2 := pmfPoint_ne_zero _ _ hk
      rw [if_pos (by omega : t ≤ 21)] at hk2
      rw [h3] at hinv
      unfold hardCount at hinv
      subst hk2
      cases s <;> simp at hinv <;> omega
    · rw [pmfF_draw f t s v h17 hc h1 h2 h3] at hk
      obtain ⟨r, hmem, hr⟩ := Finset.exists_ne_zero_of_sum_ne_zero hk
      by_cases hw : holeView v hc r = 0
      · rw [if_pos hw] at hr
        exact absurd rfl hr
      · rw [if_neg hw] at hr
        have hvr : v r ≠ 0 := fun h0 => hw (by
          have := holeView_le v hc r
          omega)
        have hdec := deckTotal_decr v r hvr
        have hmask := holeView_decr_comm v hc r hw
        have hdec2 := deckTotal_decr (holeView v hc) r hw
        have hstep := addRank_hardCount t s r
        refine ih (addRank t s r).1 (addRank t s r).2 (decr v r) h17 hc k
          (by omega) ?_ (right_ne_zero_of_mul hr)
        rw [hmask]
        omega

/-- Claim C4: for every dealer start state (total, soft), remaining deck,
h17 flag and peek constraint, the exact dealer PMF is a probability
distribution: in the exact-rational model the outcome masses sum to exactly 1
(hence within 10⁻¹²), and no mass sits outside the outcome window `0..22`. -/
theorem C4_dealer_pmf_sums_to_one (total : ℕ) (soft : Bool) (v : Deck)
    (h17 : Bool) (hc : HoleC) :
    (∑ k ∈ Finset.range 23, dealerPmf total soft v h17 hc k) = 1 ∧
    ∀ k, 22 < k → dealerPmf total soft v h17 hc k = 0 := by
  constructor
  · exact pmfF_sum_one (deckTotal v) total soft v h17 hc
  · intro k hk
    by_contra h
    have := pmfF_key_le (deckTotal v) total soft v h17 hc k h
    omega

/-- Witness for C4 at a concrete input. -/
theorem C4_dealer_pmf_sums_to_one_witness :
    dealerPmf 6 false dEmpty true .hcNone 23 = 0 :=
  (C4_dealer_pmf_sums_to_one 6 false dEmpty true .hcNone).2 23 (by norm_num)

/-- Concrete deck: sixteen Tens. -/
def dTens16 : Deck := fun i => if i = 9 then 16 else 0

/-- Evaluation: dealer at (16, hard) on sixteen Tens draws one and busts. -/
lemma pmf16Tens16Eval : pmfF 16 16 false dTens16 true .hcNone = pmfPoint 22 := by
  rw [show (16:ℕ) = 15 + 1 from rfl,
    pmfF_draw 15 16 false dTens16 true .hcNone (by norm_num) (by norm_num)
      (by decide)]
  funext k
  rw [sumUnivTen]
  norm_num [show holeView dTens16 .hcNone 0 = 0 from by decide,
    show holeView dTens16 .hcNone 1 = 0 from by decide,
    show holeView dTens16 .hcNone 2 = 0 from by decide,
    show holeView dTens16 .hcNone 3 = 0 from by decide,
    show holeView dTens16 .hcNone 4 = 0 from by decide,
    show holeView dTens16 .hcNone 5 = 0 from by decide,
    show holeView dTens16 .hcNone 6 = 0 from by decide,
    show holeView dTens16 .hcNone 7 = 0 from by decide,
    show holeView dTens16 .hcNone 8 = 0 from by decide,
    show holeView dTens16 .hcNone 9 = 16 from by decide,
    show deckTotal (holeView dTens16 .hcNone) = 16 from by decide,
    show addRank 16 false 9 = (26, false) from by decide,
    pmfF_bust 15 26 false (decr dTens16 9) true .hcNone (by norm_num)]

/-- Evaluation: dealer at (6, hard) on seventeen Tens reaches 16 then busts. -/
lemma dealerPmfTens17Eval :
    dealerPmf 6 false dTens17 true .hcNone = pmfPoint 22 := by
  rw [dealerPmf, show deckTotal dTens17 = 17 from by decide,
    show (17:ℕ) = 16 + 1 from rfl,
    pmfF_draw 16 6 false dTens17 true .hcNone (by norm_num) (by norm_num)
      (by decide)]
  funext k
  rw [sumUnivTen]
  norm_num [show holeView dTens17 .hcNone 0 = 0 from by decide,
    show holeView dTens17 .hcNone 1 = 0 from by decide,
    show holeView dTens17 .hcNone 2 = 0 from by decide,
    show holeView dTens17 .hcNone 3 = 0 from by decide,
    show holeView dTens17 .hcNone 4 = 0 from by decide,
    show holeView dTens17 .hcNone 5 = 0 from by decide,
    show holeView dTens17 .hcNone 6 = 0 from by decide,
    show holeView dTens17 .hcNone 7 = 0 from by decide,
    show holeView dTens17 .hcNone 8 = 0 from by decide,
    show holeView dTens17 .hcNone 9 = 17 from by decide,
    show deckTotal (holeView dTens17 .hcNone) = 17 from by decide,
    show addRank 6 false 9 = (16, false) from by decide,
    show decr dTens17 9 = dTens16 from by decide, pmf16Tens16Eval]

/-- Claim C5 as amended: every outcome key with mass is at most the bust
sentinel 22, and provided the masked remaining deck is large enough to carry
the dealer's hard count to 17 (17 ≤ hardCount + masked deck size, which
holds in particular for any realistically full shoe), every outcome key with
mass is one of the six buckets 17, 18, 19, 20, 21, BUST; a total below 17
can appear as a key only when the masked deck is exhausted mid-draw. -/
theorem C5_keys_in_buckets (total : ℕ) (soft : Bool) (v : Deck) (h17 : Bool)
    (hc : HoleC) (k : ℕ)
    (hinv : 17 ≤ hardCount total soft + (deckTotal (holeView v hc) : ℤ))
    (hk : dealerPmf total soft v h17 hc k ≠ 0) :
    17 ≤ k ∧ k ≤ 22 :=
  ⟨pmfF_key_ge (deckTotal v) total soft v h17 hc k le_rfl hinv hk,
   pmfF_key_le (deckTotal v) total soft v h17 hc k hk⟩

/-- Witness for C5 at a concrete input (seventeen Tens, start (6, hard)). -/
theorem C5_keys_in_buckets_witness : 17 ≤ 22 ∧ 22 ≤ 22 :=
  C5_keys_in_buckets 6 false dTens17 true .hcNone 22
    (by
      rw [show deckTotal (holeView dTens17 .hcNone) = 17 from by decide]
      unfold hardCount
      norm_num)
    (by
      rw [dealerPmfTens17Eval]
      norm_num [pmfPoint])

/-- Claim C9 as amended: stand EV is monotone in the player total across
12..20 whenever the dealer PMF carries no mass on totals below 17 (that is,
whenever the deck cannot be exhausted before the dealer reaches a standing
total); on decks the dealer can exhaust, the original claim fails. -/
theorem C9_stand_ev_monotone (pt : ℕ) (psoft : Bool) (up : Fin 10) (v : Deck)
    (h17 : Bool) (hc : HoleC) (h12 : 12 ≤ pt) (h20 : pt ≤ 20)
    (hlow : ∀ j ∈ Finset.range 17, standPmf up v h17 hc j = 0) :
    standEv pt psoft up v h17 hc ≤ standEv (pt + 1) psoft up v h17 hc := by
  have nn : ∀ j, 0 ≤ standPmf up v h17 hc j := fun j =>
    pmfF_nonneg (deckTotal v) (upValue up) (upSoft up) v h17 hc j
  have h12' := hlow 12 (by norm_num)
  have h13' := hlow 13 (by norm_num)
  have h14' := hlow 14 (by norm_num)
  have h15' := hlow 15 (by norm_num)
  have h16' := hlow 16 (by norm_num)
  have n17 := nn 17
  have n18 := nn 18
  have n19 := nn 19
  have n20 := nn 20
  have n21 := nn 21
  simp only [standEv]
  rw [sumIcc17to21, sumIcc17to21]
  interval_cases pt <;> norm_num <;> linarith

/-- Witness for C9 at a concrete input (player 16 versus upcard six on a
deck of three Tens). -/
theorem C9_stand_ev_monotone_witness :
    standEv 16 false 5 dTens3 true .hcNone ≤
      standEv 17 false 5 dTens3 true .hcNone :=
  C9_stand_ev_monotone 16 false 5 dTens3 true .hcNone (by norm_num)
    (by norm_num)
    (fun j hj => by
      rw [standPmfTens3Eval]
      have hj22 : j ≠ 22 := by
        rw [Finset.mem_range] at hj
        omega
      simp [pmfPoint, hj22])

/-- Embedding of `tuple_remove` from `src/src/sim_core.py`: decrement the slot if it is
positive, otherwise silently return the deck unchanged (no error is raised).
The Python caller passes a 1-based rank and indexes `rank - 1`; the 0-based
slot index is taken directly here. -/
def tupleRemove (deck : Deck) (idx : Fin 10) : Deck :=
  if 0 < deck idx then Function.update deck idx (deck idx - 1) else deck

/-- A fresh single-deck shoe (`make_shoe_counts(1)` from `src/src/main.py`,
`fresh(1)` in the spec). -/
def dOneDeck : Deck := ![4, 4, 4, 4, 4, 4, 4, 4, 4, 16]

/-- The simulator's action chooser from `src/src/main.py` (`main`, the
choose-action block; `src/src/main_audit.py` carries the identical block):
start from stand, switch to double when doubling is enabled and the double
EV clears the best of stand/hit plus the margin minus the tie epsilon,
otherwise to hit when the hit EV beats stand by more than the epsilon. -/
def chooseAction (disableDouble : Bool)
    (evStand evHit evDouble doubleMargin tieEps : ℚ) : String :=
  let bestAlt := max evStand evHit
  if disableDouble = false ∧ evDouble ≥ bestAlt + doubleMargin - tieEps then
    "double"
  else if evHit > evStand + tieEps then "hit"
  else "stand"

/-- Python's `max(candidates, key=candidates.get)` over an association list in
insertion order: a later entry replaces the current best only when its value
is strictly greater, so the first key attaining the maximum wins ties. -/
def pyMaxGo : List (String × ℚ) → String → ℚ → String
  | [], bk, _ => bk
  | (k, val) :: rest, bk, bv =>
    if bv < val then pyMaxGo rest k val else pyMaxGo rest bk bv

/-- First-wins argmax over a candidate list; the empty case is unreachable
because the service's candidate dict always starts with the stand entry. -/
def pyMaxKey : List (String × ℚ) → String
  | [] => "stand"
  | (k, val) :: rest => pyMaxGo rest k val

/-- The candidate dict built by `decision` in `src/src/app.py`, in insertion
order: stand, hit, double when allowed, split when allowed and present,
surrender (fixed −0.5) when allowed. -/
def appCandidates (canDouble canSplit canSurrender : Bool)
    (evStand evHit evDouble : ℚ) (evSplit : Option ℚ) : List (String × ℚ) :=
  [("stand", evStand), ("hit", evHit)]
    ++ (if canDouble then [("double", evDouble)] else [])
    ++ (match canSplit, evSplit with
        | true, some e => [("split", e)]
        | _, _ => [])
    ++ (if canSurrender then [("surrender", -(1 / 2 : ℚ))] else [])

/-- Embedding of `best = max(candidates, key=candidates.get)` from `decision` in
`src/src/app.py`: a plain argmax with no tie epsilon and no double margin. -/
def appDecisionBest (canDouble canSplit canSurrender : Bool)
    (evStand evHit evDouble : ℚ) (evSplit : Option ℚ) : String :=
  pyMaxKey (appCandidates canDouble canSplit canSurrender evStand evHit
    evDouble evSplit)

/-- Claim C6 counterexample: the service endpoint's chooser is a plain
first-wins argmax.  With doubling allowed, `double_margin = 0` and an exact
three-way tie of the EVs, the claim requires DOUBLE (the double condition
`EV_double ≥ best_alt + margin − ε` holds), but the endpoint returns stand. -/
theorem C6_counterexample_tie_yields_stand :
    appDecisionBest true false false 0 0 0 none = "stand" ∧
    (0 : ℚ) ≥ max 0 0 + 0 - 1 / 1000000000 := by
  constructor
  · rfl
  · norm_num

/-- Claim C6 as amended: the simulator's chooser (`src/src/main.py`)
implements the claimed policy exactly — DOUBLE iff doubling is enabled and
`EV_double ≥ max(EV_stand, EV_hit) + double_margin − ε` (so an exact tie at
margin 0 yields DOUBLE), else HIT iff `EV_hit > EV_stand + ε`, else STAND;
the service endpoint (`src/src/app.py`) instead takes a plain first-wins
argmax with no epsilon or margin, where an exact tie yields STAND. -/
theorem C6_main_chooser_policy (disableDouble : Bool)
    (evStand evHit evDouble doubleMargin tieEps : ℚ) :
    (chooseAction disableDouble evStand evHit evDouble doubleMargin tieEps
        = "double" ↔
      (disableDouble = false ∧
        evDouble ≥ max evStand evHit + doubleMargin - tieEps)) ∧
    (chooseAction disableDouble evStand evHit evDouble doubleMargin tieEps
        = "hit" ↔
      (¬(disableDouble = false ∧
          evDouble ≥ max evStand evHit + doubleMargin - tieEps) ∧
        evHit > evStand + tieEps)) ∧
    (chooseAction disableDouble evStand evHit evDouble doubleMargin tieEps
        = "stand" ↔
      (¬(disableDouble = false ∧
          evDouble ≥ max evStand evHit + doubleMargin - tieEps) ∧
        ¬(evHit > evStand + tieEps))) := by
  simp only [chooseAction]
  split_ifs with h1 h2
  · exact ⟨iff_of_true rfl h1,
      iff_of_false (by decide) fun hcon => hcon.1 h1,
      iff_of_false (by decide) fun hcon => hcon.1 h1⟩
  · exact ⟨iff_of_false (by decide) h1,
      iff_of_true rfl ⟨h1, h2⟩,
      iff_of_false (by decide) fun hcon => hcon.2 h2⟩
  · exact ⟨iff_of_false (by decide) h1,
      iff_of_false (by decide) fun hcon => h2 hcon.2,
      iff_of_true rfl ⟨h1, h2⟩⟩

/-- Witness for C6: an exact tie with margin 0 and the default epsilon
yields DOUBLE in the simulator's chooser. -/
theorem C6_main_chooser_policy_witness :
    chooseAction false 0 0 0 0 (1 / 1000000000) = "double" :=
  (C6_main_chooser_policy false 0 0 0 0 (1 / 1000000000)).1.mpr
    ⟨rfl, by norm_num⟩

/-- Claim C7 counterexample: `tuple_remove` on an empty slot does not fail —
it returns normally with the deck unchanged. -/
theorem C7_counterexample_silent_noop : tupleRemove dEmpty 1 = dEmpty := by
  rw [tupleRemove, if_neg]
  decide

/-- Claim C7 as amended: the exact core's `remove_card` behaves as claimed —
it fails (`ValueError`, modelled as `none`) when the slot is empty, and
otherwise returns a fresh vector with slot `r` decremented by one and every
other slot unchanged, the input being a value that is never mutated; the
simulator's `tuple_remove`, however, silently returns the deck unchanged
when the slot is empty instead of failing. -/
theorem C7_remove_card_fails_on_empty (v : Deck) (r : Fin 10) :
    (v r = 0 → removeCard v r = none ∧ tupleRemove v r = v) ∧
    (0 < v r → ∃ w, removeCard v r = some w ∧ w = tupleRemove v r ∧
      w r = v r - 1 ∧ ∀ j, j ≠ r → w j = v j) := by
  constructor
  · intro h0
    constructor
    · rw [removeCard, if_pos h0]
    · rw [tupleRemove, if_neg (by omega)]
  · intro hpos
    refine ⟨Function.update v r (v r - 1), ?_, ?_, ?_, ?_⟩
    · rw [removeCard, if_neg (by omega)]
    · rw [tupleRemove, if_pos hpos]
    · rw [Function.update_same]
    · intro j hj
      rw [Function.update_noteq hj]

/-- Witness for C7: removing an ace from a fresh single deck succeeds with
the expected decrement. -/
theorem C7_remove_card_fails_on_empty_witness :
    ∃ w, removeCard dOneDeck 0 = some w ∧ w = tupleRemove dOneDeck 0 ∧
      w 0 = dOneDeck 0 - 1 ∧ ∀ j, j ≠ 0 → w j = dOneDeck j :=
  (C7_remove_card_fails_on_empty dOneDeck 0).2 (by decide)

/-- Wire rank symbols, the closed `Rank` literal set of `src/src/app.py`. -/
inductive RankS
  | rA | r2 | r3 | r4 | r5 | r6 | r7 | r8 | r9 | rT
deriving DecidableEq, Fintype

/-- Pydantic validation of one rank symbol against the `Rank` literal; any
other string is a request-validation failure. -/
def parseRank : String → Option RankS
  | "A" => some .rA
  | "2" => some .r2
  | "3" => some .r3
  | "4" => some .r4
  | "5" => some .r5
  | "6" => some .r6
  | "7" => some .r7
  | "8" => some .r8
  | "9" => some .r9
  | "T" => some .rT
  | _ => none

/-- The per-game counts dict of `src/src/app.py` (`_GameState.counts`). -/
abbrev CountsMap := RankS → ℕ

/-- Errors surfaced by the counts-apply endpoint: every request-validation
failure (unknown symbol, empty card list) is mapped to HTTP 400
`invalid_card_symbol` by `_validation_to_400`; requesting more cards of a
rank than remain is HTTP 409 `insufficient_cards`. -/
inductive ApplyErr
  | invalidCardSymbol
  | insufficientCards
deriving DecidableEq

/-- Embedding of `counts_apply` from `src/src/app.py`, together with the pydantic
validation that runs before it (`CountsApplyRequest.cards`, a min-length-1
list of `Rank` literals).  All checks happen before any decrement, in source
order: the request is validated, the `need` multiset is built, the
availability loop raises 409 on any shortage, and only then does the final
loop subtract every requested card. -/
def countsApply (counts : CountsMap) (cards : List String) :
    Except ApplyErr CountsMap :=
  if cards.isEmpty then .error .invalidCardSymbol
  else match cards.mapM parseRank with
    | none => .error .invalidCardSymbol
    | some parsed =>
      if ∀ r, parsed.count r ≤ counts r then
        .ok fun r => counts r - parsed.count r
      else .error .insufficientCards

/-- The stored counts as the handler leaves them: unchanged on any error,
fully decremented on success. -/
def countsApplyStore (counts : CountsMap) (cards : List String) :
    CountsMap × Option ApplyErr :=
  match countsApply counts cards with
  | .error e => (counts, some e)
  | .ok c => (c, none)

/-- Claim C8: the counts-apply operation is atomic.  An empty batch or any
invalid symbol yields the 400-class client error with the stored counts
exactly as they were; a batch requesting more of some rank than remains
yields the 409 conflict with the stored counts exactly as they were; on
success every requested card is deducted (each slot decremented by its
multiplicity in the batch). -/
theorem C8_counts_apply_atomic (counts : CountsMap) (cards : List String) :
    (cards = [] →
      countsApplyStore counts cards = (counts, some .invalidCardSymbol)) ∧
    (cards.mapM parseRank = none →
      countsApplyStore counts cards = (counts, some .invalidCardSymbol)) ∧
    (∀ parsed, cards.mapM parseRank = some parsed →
      (∃ r, counts r < parsed.count r) →
      countsApplyStore counts cards = (counts, some .insufficientCards)) ∧
    (∀ parsed, cards ≠ [] → cards.mapM parseRank = some parsed →
      (∀ r, parsed.count r ≤ counts r) →
      countsApplyStore counts cards =
        ((fun r => counts r - parsed.count r), none)) := by
  refine ⟨?_, ?_, ?_, ?_⟩
  · intro h
    subst h
    rfl
  · intro h
    have hne : ¬ cards.isEmpty := by
      intro he
      rw [List.isEmpty_iff] at he
      subst he
      rw [show (List.mapM parseRank ([] : List String)) = some [] from rfl] at h
      exact Option.noConfusion h
    rw [countsApplyStore, countsApply, if_neg hne, h]
  · intro parsed hp hshort
    have hne : ¬ cards.isEmpty := by
      intro he
      rw [List.isEmpty_iff] at he
      subst he
      rw [show (List.mapM parseRank ([] : List String)) = some [] from rfl] at hp
      injection hp with hp2
      obtain ⟨r, hr⟩ := hshort
      rw [← hp2, List.count_nil] at hr
      omega
    have hfail : ¬ ∀ r, parsed.count r ≤ counts r := by
      obtain ⟨r, hr⟩ := hshort
      intro hall
      exact absurd (hall r) (by omega)
    rw [countsApplyStore, countsApply, if_neg hne, hp]
    simp only [if_neg hfail]
  · intro parsed hcne hp hok
    have hne : ¬ cards.isEmpty := fun he => hcne (List.isEmpty_iff.mp he)
    rw [countsApplyStore, countsApply, if_neg hne, hp]
    simp only [if_pos hok]

/-- Witness for C8: requesting five aces from a single-deck game (four aces
remain) is rejected as a conflict and the counts are untouched. -/
theorem C8_counts_apply_atomic_witness :
    countsApplyStore (fun _ => 4) ["A", "A", "A", "A", "A"] =
      ((fun _ => 4), some .insufficientCards) :=
  (C8_counts_apply_atomic (fun _ => 4) ["A", "A", "A", "A", "A"]).2.2.1
    [RankS.rA, RankS.rA, RankS.rA, RankS.rA, RankS.rA] (by rfl)
    ⟨RankS.rA, by decide⟩

/-- Wire-symbol values from `_add_to` in `src/src/app.py`:
`11 if r == "A" else (10 if r == "T" else int(r))`. -/
def rankValS : RankS → ℕ
  | .rA => 11
  | .r2 => 2
  | .r3 => 3
  | .r4 => 4
  | .r5 => 5
  | .r6 => 6
  | .r7 => 7
  | .r8 => 8
  | .r9 => 9
  | .rT => 10

/-- Embedding of `_add_to` from `src/src/app.py`: the same soft-ace arithmetic as
`_add_rank`, over wire symbols. -/
def addTo (t : ℕ) (s : Bool) (r : RankS) : ℕ × Bool :=
  let v := rankValS r
  let t2 := t + v
  let s2 := s || decide (r = RankS.rA)
  if 21 < t2 ∧ s2 = true then (t2 - 10, false) else (t2, s2)

/-- Claim C10: a soft bust state is unreachable.  For every input total,
softness and rank, if the pair returned by the add-rank operation (either
`_add_rank` of the exact core or `_add_to` of the service) still carries
`soft = true`, its total is at most 21: an ace counted as 11 is demoted as
soon as the total would exceed 21. -/
theorem C10_no_soft_bust (t : ℕ) (s : Bool) (r : Fin 10) (rs : RankS) :
    ((addRank t s r).2 = true → (addRank t s r).1 ≤ 21) ∧
    ((addTo t s rs).2 = true → (addTo t s rs).1 ≤ 21) := by
  constructor
  · intro h
    rw [addRank] at h ⊢
    by_cases hcond : 21 < t + rankValue r ∧ (s || decide (r = 0)) = true
    · rw [if_pos hcond] at h
      exact absurd h (by simp)
    · rw [if_neg hcond] at h ⊢
      exact le_of_not_lt fun hlt => hcond ⟨hlt, h⟩
  · intro h
    rw [addTo] at h ⊢
    by_cases hcond : 21 < t + rankValS rs ∧ (s || decide (rs = RankS.rA)) = true
    · rw [if_pos hcond] at h
      exact absurd h (by simp)
    · rw [if_neg hcond] at h ⊢
      exact le_of_not_lt fun hlt => hcond ⟨hlt, h⟩

/-- Witness for C10: an ace on (5, hard) gives soft 16 in both embeddings,
and 16 is at most 21. -/
theorem C10_no_soft_bust_witness :
    (addRank 5 false 0).1 ≤ 21 ∧ (addTo 5 false RankS.rA).1 ≤ 21 :=
  ⟨(C10_no_soft_bust 5 false 0 RankS.rA).1 (by decide),
   (C10_no_soft_bust 5 false 0 RankS.rA).2 (by decide)⟩
